import Mathlib

/-!
# Verification of the lab3 file-monitor program

A shallow embedding of `src/lab3.py`: a directory snapshot-diff engine that
classifies files by extension, detects added/removed/changed files against the
previously scanned state, and emits de-duplicated notifications.

The filesystem is modelled as an association list from filename to an entry
holding the mtime, the ctime and the readable content (`none` models a
per-file read failure, the case where `open` raises).  Timestamps are
integers; Python's opaque `hash` on strings is modelled by the executable
`pyHash` below (the program only relies on hash stability across reads of
unchanged content, not on a particular algorithm).
-/

namespace Lab3

/-- Association-list lookup: the value at the first matching key
(dictionary access `d[k]` / `d.get(k)`). -/
def alookup {α : Type} : List (String × α) → String → Option α
  | [], _ => none
  | (k, v) :: rest, n => if k = n then some v else alookup rest n

/-- Association-list store `d[k] = v`: Python-dict semantics, the first
matching key is overwritten in place, a new key is appended at the end. -/
def ainsert {α : Type} : List (String × α) → String → α → List (String × α)
  | [], n, v => [(n, v)]
  | (k, w) :: rest, n, v =>
    if k = n then (k, v) :: rest else (k, w) :: ainsert rest n v

/-- The keys of an association list. -/
def keys {α : Type} (l : List (String × α)) : List String := l.map Prod.fst

/-- `os.path.splitext(path)[1]`: the suffix starting at the last dot, and the
empty string when there is no dot or only leading dots precede it
(so `".hidden"` has no extension). -/
def splitextExt (name : String) : String :=
  let cs := name.data
  match (cs.reverse).findIdx? (· = '.') with
  | none => ""
  | some j =>
    let i := cs.length - 1 - j
    if (cs.take i).all (· = '.') then "" else String.mk (cs.drop i)

/-- `str.lower()` (ASCII as used here). -/
def strLower (s : String) : String := String.mk (s.data.map Char.toLower)

/-- `str.endswith(suffix)`. -/
def strEndsWith (s suffix : String) : Bool := suffix.data.isSuffixOf s.data

/-- `needle in line` on strings (substring containment). -/
def strContains (line needle : String) : Bool := decide (List.IsInfix needle.data line.data)

/-- Model of Python's string `hash`: an executable deterministic digest.
The program only needs stability across reads of unchanged content. -/
def pyHash (s : String) : Nat :=
  s.data.foldl (fun h c => (h * 31 + c.toNat) % (2 ^ 64)) 5381

/-- One filesystem entry: mtime/ctime as seen by `os.path.getmtime` /
`getctime`, and the content a successful `open(...).read()` would return
(`none` models a read failure / raised exception). -/
structure FsFile where
  mtime : Int
  ctime : Int
  content : Option String
deriving DecidableEq, Repr

/-- The watched directory: filename → entry.  `os.listdir` yields the keys in
list order; every entry is a regular file. -/
def Fs : Type := List (String × FsFile)

/-- The variant a file is classified into (the Python class chosen from
`FILE_TYPES`, with `File` itself as `generic`). -/
inductive FileKind where
  | generic
  | image
  | text
  | program
deriving DecidableEq, Repr

/-- `FileMonitor.FILE_TYPES.get(ext, File)`: the variant for an extension. -/
def classify (ext : String) : FileKind :=
  if ext = ".png" ∨ ext = ".jpg" ∨ ext = ".jpeg" then .image
  else if ext = ".txt" then .text
  else if ext = ".py" ∨ ext = ".java" then .program
  else .generic

/-- One tracked file object (`File` and its subclasses).  `contentHash` is the
`TextFile.content_hash` attribute; it is only ever meaningful when
`kind = text` and holds `none` when the hashing read failed. -/
structure FileRec where
  path : String
  filename : String
  extension : String
  creationDate : Int
  lastUpdatedDate : Int
  kind : FileKind
  contentHash : Option Nat
deriving DecidableEq, Repr

/-- `open(path).read()`: the content when the file exists and is readable. -/
def readContent (fs : Fs) (path : String) : Option String :=
  (alookup fs path).bind (·.content)

/-- `TextFile.compute_content_hash`: hash of the full content, `none` when
the read raises (the `except` branch returns `None`). -/
def computeContentHash (fs : Fs) (path : String) : Option Nat :=
  (readContent fs path).map pyHash

/-- `File.__init__` as performed by `scan_files`: the record built for a
directory entry.  The monitored directory is fixed, so the path and the base
name coincide with the listing name.  `TextFile.__init__` additionally
computes and stores the content hash. -/
def buildRecord (fs : Fs) (filename : String) (f : FsFile) : FileRec :=
  let kind := classify (strLower (splitextExt filename))
  { path := filename
    filename := filename
    extension := splitextExt filename
    creationDate := f.ctime
    lastUpdatedDate := f.mtime
    kind := kind
    contentHash := if kind = .text then computeContentHash fs filename else none }

/-- `File.has_changed`: live mtime compared (by inequality) to the stored
`last_updated_date`.  A missing path would raise in Python; the call sites we
model only reach it for listed files, so that case is given the inert value
`false`. -/
def hasChanged (fs : Fs) (rec : FileRec) : Bool :=
  match alookup fs rec.path with
  | some f => decide (rec.lastUpdatedDate ≠ f.mtime)
  | none => false

/-- `update_last_modified`: re-stamp `last_updated_date` from the live mtime;
the Text variant additionally recomputes and stores the content hash.  (On a
missing path Python would raise; the stamp is left unchanged there, an
unreachable case at the modelled call sites.) -/
def updateLastModified (fs : Fs) (rec : FileRec) : FileRec :=
  let mt := match alookup fs rec.path with
    | some f => f.mtime
    | none => rec.lastUpdatedDate
  let r := { rec with lastUpdatedDate := mt }
  if rec.kind = .text then { r with contentHash := computeContentHash fs rec.path } else r

/-- `TextFile.has_content_changed`: recompute the hash and compare to the
stored one. -/
def hasContentChanged (fs : Fs) (rec : FileRec) : Bool :=
  decide (computeContentHash fs rec.path ≠ rec.contentHash)

/-! ## The monitor -/

/-- One notification, before formatting.  `render` below is the exact
f-string each one is printed with. -/
inductive Msg where
  | added (n : String)
  | deleted (n : String)
  | changed (n : String)
  | contentModified (n : String)
deriving DecidableEq, Repr

/-- The exact printed line for each notification (the f-strings of
`detect_changes`). -/
def Msg.render : Msg → String
  | .added n => "[INFO] " ++ n ++ " is a new file."
  | .deleted n => "[INFO] " ++ n ++ " was deleted."
  | .changed n => "[INFO] " ++ n ++ " has changed."
  | .contentModified n =>
    "[INFO] A modification was detected in the document '" ++ n ++ "'."

/-- `FileMonitor` state: `files` (filename → record, the last scan) and
`last_displayed_state` (filename → the category string last announced),
plus the commit `snapshot_time`. -/
structure Monitor where
  files : List (String × FileRec)
  lastDisplayedState : List (String × String)
  snapshotTime : Int
deriving DecidableEq, Repr

/-- The loop over `added_files`: emit `"<n> is a new file."` unless the last
displayed state for `n` is already `'added'`, recording `'added'` on
emission. -/
def processAdded : List String → List (String × String) → List Msg × List (String × String)
  | [], lds => ([], lds)
  | n :: rest, lds =>
    if alookup lds n = some "added" then processAdded rest lds
    else
      let r := processAdded rest (ainsert lds n "added")
      (.added n :: r.1, r.2)

/-- The loop over `deleted_files`, as for `processAdded` with `'deleted'`. -/
def processDeleted : List String → List (String × String) → List Msg × List (String × String)
  | [], lds => ([], lds)
  | n :: rest, lds =>
    if alookup lds n = some "deleted" then processDeleted rest lds
    else
      let r := processDeleted rest (ainsert lds n "deleted")
      (.deleted n :: r.1, r.2)

/-- The loop over `changed_files`: under the same de-duplication guard it
emits the primary line and, when the filename literally ends in `'.txt'` and
`self.files[filename].has_content_changed()` holds — read from the record
that `update_last_modified` already mutated earlier in `detect_changes` —
also the secondary content line.  `secondaryCheck` is that condition.  (A
filename absent from `files` would be a `KeyError` in Python; the guard is
inert there, an unreachable case since changed names come from `files`.) -/
def secondaryCheck (fs : Fs) (updFiles : List (String × FileRec)) (n : String) : Bool :=
  strEndsWith n ".txt" &&
    (match alookup updFiles n with
     | some r => hasContentChanged fs r
     | none => false)

def processChanged (fs : Fs) (updFiles : List (String × FileRec)) :
    List String → List (String × String) → List Msg × List (String × String)
  | [], lds => ([], lds)
  | n :: rest, lds =>
    if alookup lds n = some "changed" then processChanged fs updFiles rest lds
    else
      let sec : List Msg :=
        if secondaryCheck fs updFiles n then [.contentModified n] else []
      let r := processChanged fs updFiles rest (ainsert lds n "changed")
      (.changed n :: (sec ++ r.1), r.2)

/-- The mutation pass of `detect_changes` step 1: every tracked record that
is still listed and reports `has_changed()` gets `update_last_modified()`
applied in place. -/
def updateChangedRecs (fs : Fs) (newKeys : List String) (files : List (String × FileRec)) :
    List (String × FileRec) :=
  files.map fun p =>
    if p.1 ∈ newKeys ∧ hasChanged fs p.2 then (p.1, updateLastModified fs p.2) else p

/-- `changed_files`: the names collected by the same pass. -/
def changedNames (fs : Fs) (newKeys : List String) (files : List (String × FileRec)) :
    List String :=
  (files.filter fun p => decide (p.1 ∈ newKeys ∧ hasChanged fs p.2)).map Prod.fst

/-- `added_files = new_files - old_files` (in listing order). -/
def addedNames (oldK newK : List String) : List String :=
  newK.filter fun n => decide (¬ n ∈ oldK)

/-- `deleted_files = old_files - new_files` (in tracking order). -/
def deletedNames (oldK newK : List String) : List String :=
  oldK.filter fun n => decide (¬ n ∈ newK)

/-- `FileMonitor.detect_changes`: classify the diff, mutate the changed old
records, and emit the de-duplicated messages in added/deleted/changed
order. -/
def detectChanges (fs : Fs) (m : Monitor) (current : List (String × FileRec)) :
    List Msg × Monitor :=
  let oldK := keys m.files
  let newK := keys current
  let updFiles := updateChangedRecs fs newK m.files
  let ra := processAdded (addedNames oldK newK) m.lastDisplayedState
  let rd := processDeleted (deletedNames oldK newK) ra.2
  let rc := processChanged fs updFiles (changedNames fs newK m.files) rd.2
  (ra.1 ++ rd.1 ++ rc.1,
   { m with files := updFiles, lastDisplayedState := rc.2 })

/-- The dictionary `current_files` built by `scan_files`: one record per
listed file, dict-inserted in listing order. -/
def buildCurrent (fs : Fs) : List (String × FileRec) :=
  fs.foldl (fun acc p => ainsert acc p.1 (buildRecord fs p.1 p.2)) []

/-- `FileMonitor.scan_files`: build the fresh records, run `detect_changes`
against the previous snapshot, then replace `files` wholesale with the fresh
set (the mutated old records are discarded). -/
def scanFiles (fs : Fs) (m : Monitor) : List Msg × Monitor :=
  let current := buildCurrent fs
  let r := detectChanges fs m current
  (r.1, { r.2 with files := current })

/-- `FileMonitor.commit`: stamp a new snapshot time and force
`update_last_modified()` on every tracked record. -/
def commitM (now : Int) (fs : Fs) (m : Monitor) : Monitor :=
  { m with
    snapshotTime := now
    files := m.files.map fun p => (p.1, updateLastModified fs p.2) }

/-- `FileMonitor.__init__`: empty state, then one initial scan. -/
def initMonitor (now : Int) (fs : Fs) : Monitor :=
  (scanFiles fs { files := [], lastDisplayedState := [], snapshotTime := now }).2

/-! ## The `info` query -/

/-- `file.readlines()`: split after each newline, keeping the newline, with a
final unterminated line included when non-empty.  The accumulator holds the
current line reversed. -/
def readlinesAux (acc : List Char) : List Char → List (List Char)
  | [] => if acc.isEmpty then [] else [acc.reverse]
  | c :: rest =>
    if c = '\n' then (acc.reverse ++ ['\n']) :: readlinesAux [] rest
    else readlinesAux (c :: acc) rest

/-- `file.readlines()` on a content string. -/
def readlines (s : String) : List (List Char) := readlinesAux [] s.data

/-- `len(line.split())`: the number of maximal non-whitespace runs.  The flag
says whether we are inside a run. -/
def countWordsAux (inWord : Bool) : List Char → Nat
  | [] => 0
  | c :: rest =>
    if c.isWhitespace then countWordsAux false rest
    else (if inWord then 0 else 1) + countWordsAux true rest

/-- `len(line.split())` for one line. -/
def countWords (line : List Char) : Nat := countWordsAux false line

/-- A value of the `info()` mapping: a count, a string (including the
`'Unable to read'` sentinel), or a timestamp. -/
inductive FieldVal where
  | nat (v : Nat)
  | str (v : String)
  | time (v : Int)
deriving DecidableEq, Repr

/-- `File.info`: the base fields, in order. -/
def baseInfo (rec : FileRec) : List (String × FieldVal) :=
  [("Filename", .str rec.filename),
   ("Extension", .str rec.extension),
   ("Creation Date", .time rec.creationDate),
   ("Last Updated Date", .time rec.lastUpdatedDate)]

/-- `info()` of each variant: base fields plus the variant's extra fields,
with the `'Unable to read'` sentinels when the content read raises. -/
def infoRec (fs : Fs) (rec : FileRec) : List (String × FieldVal) :=
  match rec.kind with
  | .generic => baseInfo rec
  | .image => baseInfo rec ++ [("Dimensions", .str "N/A (Requires external library)")]
  | .text =>
    baseInfo rec ++
      match readContent fs rec.path with
      | some c =>
        let ls := readlines c
        [("Line Count", .nat ls.length),
         ("Word Count", .nat (ls.map countWords).sum),
         ("Character Count", .nat (ls.map List.length).sum)]
      | none =>
        [("Line Count", .str "Unable to read"),
         ("Word Count", .str "Unable to read"),
         ("Character Count", .str "Unable to read")]
  | .program =>
    baseInfo rec ++
      match readContent fs rec.path with
      | some c =>
        let ls := readlines c
        [("Line Count", .nat ls.length),
         ("Class Count", .nat (ls.filter fun l => strContains (String.mk l) "class ").length),
         ("Method Count", .nat (ls.filter fun l => strContains (String.mk l) "def ").length)]
      | none =>
        [("Line Count", .str "Unable to read"),
         ("Class Count", .str "Unable to read"),
         ("Method Count", .str "Unable to read")]

/-- `FileMonitor.info`: the tracked record's mapping, `none` when the
filename is untracked (the `'not found'` branch). -/
def infoM (fs : Fs) (m : Monitor) (filename : String) : Option (List (String × FieldVal)) :=
  (alookup m.files filename).map (infoRec fs)

/-! ## Concrete directories used in scenarios -/

/-- A directory holding one text file `a.txt` with the given mtime and
content. -/
def fsOneTxt (t : Int) (c : String) : Fs := [("a.txt", ⟨t, 0, some c⟩)]

/-- A directory holding one unclassified file `a.bin` with the given mtime. -/
def fsOneBin (t : Int) : Fs := [("a.bin", ⟨t, 0, some ""⟩)]

/-- A directory holding one text file `a.txt` whose reads fail. -/
def fsUnreadable : Fs := [("a.txt", ⟨0, 0, none⟩)]

/-- A directory holding an upper-cased `NOTES.TXT`. -/
def fsUpper (t : Int) (c : String) : Fs := [("NOTES.TXT", ⟨t, 0, some c⟩)]

/-- The two-file directory of the spec's scenario. -/
def fsPair : Fs :=
  [("a.txt", ⟨0, 0, some "hello\nworld\n"⟩),
   ("b.py", ⟨0, 0, some "def f():\n    pass\n"⟩)]

/-- The empty monitor state a `FileMonitor.__init__` starts from. -/
def emptyMonitor : Monitor := { files := [], lastDisplayedState := [], snapshotTime := 0 }

/-- A directory where `a.bin` carries mtime 3. -/
def fsBack : Fs := [("a.bin", ⟨3, 0, some ""⟩)]

/-- A tracked record for `a.bin` whose stored baseline mtime (5) is later
than the live mtime of `fsBack` (3): the clock moved backward. -/
def recStale : FileRec :=
  { path := "a.bin", filename := "a.bin", extension := ".bin",
    creationDate := 0, lastUpdatedDate := 5, kind := .generic, contentHash := none }

/-! ## Association-list lemmas -/

theorem alookup_ainsert {α : Type} (l : List (String × α)) (n k : String) (v : α) :
    alookup (ainsert l n v) k = if n = k then some v else alookup l k := by
  induction l with
  | nil => simp [ainsert, alookup]
  | cons p rest ih =>
    obtain ⟨a, w⟩ := p
    by_cases han : a = n
    · subst han
      by_cases hak : a = k <;> simp [ainsert, alookup, hak]
    · by_cases hak : a = k
      · subst hak
        have hnk : ¬ n = a := fun h => han h.symm
        simp [ainsert, alookup, han, hnk]
      · simp [ainsert, alookup, han, hak, ih]

@[simp] theorem keys_nil {α : Type} : keys ([] : List (String × α)) = [] := rfl

@[simp] theorem keys_cons {α : Type} (a : String) (w : α) (rest : List (String × α)) :
    keys ((a, w) :: rest) = a :: keys rest := rfl

theorem alookup_eq_none {α : Type} (l : List (String × α)) (n : String) :
    alookup l n = none ↔ n ∉ keys l := by
  induction l with
  | nil => simp [alookup]
  | cons p rest ih =>
    obtain ⟨a, w⟩ := p
    by_cases h : a = n
    · subst h
      simp [alookup]
    · rw [keys_cons, List.mem_cons]
      simp only [alookup, if_neg h, ih]
      constructor
      · intro h1 h2
        rcases h2 with h2 | h2
        · exact h (h2.symm)
        · exact h1 h2
      · intro h1 h2
        exact h1 (Or.inr h2)

theorem mem_keys_of_alookup {α : Type} {l : List (String × α)} {n : String} {v : α}
    (h : alookup l n = some v) : n ∈ keys l := by
  by_contra hmem
  rw [← alookup_eq_none l n] at hmem
  rw [h] at hmem
  exact Option.noConfusion hmem

theorem alookup_mem {α : Type} {l : List (String × α)} {n : String} {v : α}
    (h : alookup l n = some v) : (n, v) ∈ l := by
  induction l with
  | nil => exact Option.noConfusion h
  | cons p rest ih =>
    obtain ⟨a, w⟩ := p
    by_cases ha : a = n
    · subst ha
      simp [alookup] at h
      simp [h]
    · simp [alookup, ha] at h
      exact List.mem_cons_of_mem _ (ih h)

theorem alookup_of_mem_nodup {α : Type} {l : List (String × α)} {n : String} {v : α}
    (hnd : (keys l).Nodup) (h : (n, v) ∈ l) : alookup l n = some v := by
  induction l with
  | nil => simp at h
  | cons p rest ih =>
    obtain ⟨a, w⟩ := p
    rw [keys_cons, List.nodup_cons] at hnd
    rcases List.mem_cons.1 h with h1 | h1
    · injection h1 with h1a h1b
      subst h1a; subst h1b
      simp [alookup]
    · have han : ¬ a = n := by
        rintro rfl
        exact hnd.1 (List.mem_map_of_mem Prod.fst h1)
      simp only [alookup, if_neg han]
      exact ih hnd.2 h1

theorem mem_keys_ainsert {α : Type} (l : List (String × α)) (n k : String) (v : α) :
    k ∈ keys (ainsert l n v) ↔ k = n ∨ k ∈ keys l := by
  induction l with
  | nil => simp [ainsert]
  | cons p rest ih =>
    obtain ⟨a, w⟩ := p
    by_cases ha : a = n
    · subst ha
      have he : ainsert ((a, w) :: rest) a v = (a, v) :: rest := by simp [ainsert]
      rw [he, keys_cons, keys_cons]
      simp only [List.mem_cons]
      tauto
    · have he : ainsert ((a, w) :: rest) n v = (a, w) :: ainsert rest n v := by
        simp [ainsert, ha]
      rw [he, keys_cons, keys_cons]
      simp only [List.mem_cons, ih]
      tauto

theorem nodup_keys_ainsert {α : Type} (l : List (String × α)) (n : String) (v : α)
    (h : (keys l).Nodup) : (keys (ainsert l n v)).Nodup := by
  induction l with
  | nil => simp [ainsert]
  | cons p rest ih =>
    obtain ⟨a, w⟩ := p
    rw [keys_cons, List.nodup_cons] at h
    by_cases ha : a = n
    · subst ha
      have he : ainsert ((a, w) :: rest) a v = (a, v) :: rest := by simp [ainsert]
      rw [he, keys_cons, List.nodup_cons]
      exact h
    · have he : ainsert ((a, w) :: rest) n v = (a, w) :: ainsert rest n v := by
        simp [ainsert, ha]
      rw [he, keys_cons, List.nodup_cons]
      refine ⟨fun hmem => ?_, ih h.2⟩
      rcases (mem_keys_ainsert rest n a v).1 hmem with h1 | h1
      · exact ha h1
      · exact h.1 h1

/-! ## Diff-classification lemmas -/

theorem mem_addedNames {oldK newK : List String} {n : String} :
    n ∈ addedNames oldK newK ↔ n ∈ newK ∧ n ∉ oldK := by
  simp [addedNames, List.mem_filter]

theorem mem_deletedNames {oldK newK : List String} {n : String} :
    n ∈ deletedNames oldK newK ↔ n ∈ oldK ∧ n ∉ newK := by
  simp [deletedNames, List.mem_filter]

theorem mem_changedNames {fs : Fs} {nk : List String} {files : List (String × FileRec)}
    {n : String} (h : n ∈ changedNames fs nk files) :
    n ∈ keys files ∧ n ∈ nk := by
  obtain ⟨p, hp, rfl⟩ := List.mem_map.1 h
  have hf := List.mem_filter.1 hp
  have hg := of_decide_eq_true hf.2
  exact ⟨List.mem_map_of_mem Prod.fst hf.1, hg.1⟩

theorem changedNames_nodup {fs : Fs} {nk : List String} {files : List (String × FileRec)}
    (h : (keys files).Nodup) : (changedNames fs nk files).Nodup := by
  have hsub : List.Sublist (changedNames fs nk files) (keys files) :=
    (List.filter_sublist files).map Prod.fst
  exact h.sublist hsub

theorem changedNames_spec {fs : Fs} {nk : List String} {files : List (String × FileRec)}
    {n : String} {r : FileRec} (hnd : (keys files).Nodup)
    (hl : alookup files n = some r) (h : n ∈ changedNames fs nk files) :
    n ∈ nk ∧ hasChanged fs r = true := by
  obtain ⟨p, hp, hfst⟩ := List.mem_map.1 h
  have hf := List.mem_filter.1 hp
  have hg := of_decide_eq_true hf.2
  have : alookup files p.1 = some p.2 := alookup_of_mem_nodup hnd (by
    obtain ⟨p1, p2⟩ := p
    exact hf.1)
  rw [hfst] at this
  rw [hl] at this
  injection this with hr
  subst hr
  exact ⟨hfst ▸ hg.1, hg.2⟩

theorem not_mem_changedNames {fs : Fs} {nk : List String} {files : List (String × FileRec)}
    {n : String} {r : FileRec} (hnd : (keys files).Nodup)
    (hl : alookup files n = some r) (hg : ¬ (n ∈ nk ∧ hasChanged fs r = true)) :
    n ∉ changedNames fs nk files :=
  fun h => hg (changedNames_spec hnd hl h)

theorem keys_updateChangedRecs (fs : Fs) (nk : List String)
    (files : List (String × FileRec)) :
    keys (updateChangedRecs fs nk files) = keys files := by
  induction files with
  | nil => rfl
  | cons p rest ih =>
    obtain ⟨a, w⟩ := p
    by_cases hg : a ∈ nk ∧ hasChanged fs w
    · simp only [updateChangedRecs, List.map_cons, if_pos hg] at ih ⊢
      rw [keys_cons, keys_cons, ih]
    · simp only [updateChangedRecs, List.map_cons, if_neg hg] at ih ⊢
      rw [keys_cons, keys_cons, ih]

theorem alookup_updateChangedRecs (fs : Fs) (nk : List String)
    (files : List (String × FileRec)) (n : String) :
    alookup (updateChangedRecs fs nk files) n =
      (alookup files n).map
        (fun r => if n ∈ nk ∧ hasChanged fs r then updateLastModified fs r else r) := by
  induction files with
  | nil => rfl
  | cons p rest ih =>
    obtain ⟨a, w⟩ := p
    have hstep : updateChangedRecs fs nk ((a, w) :: rest) =
        (if a ∈ nk ∧ hasChanged fs w then (a, updateLastModified fs w) else (a, w)) ::
          updateChangedRecs fs nk rest := rfl
    by_cases ha : a = n
    · subst ha
      by_cases hg : a ∈ nk ∧ hasChanged fs w
      · rw [hstep, if_pos hg]
        have l1 : alookup ((a, updateLastModified fs w) :: updateChangedRecs fs nk rest) a =
            some (updateLastModified fs w) := by simp [alookup]
        have l2 : alookup ((a, w) :: rest) a = some w := by simp [alookup]
        rw [l1, l2]
        show some (updateLastModified fs w) =
          some (if a ∈ nk ∧ hasChanged fs w then updateLastModified fs w else w)
        rw [if_pos hg]
      · rw [hstep, if_neg hg]
        have l1 : alookup ((a, w) :: updateChangedRecs fs nk rest) a = some w := by
          simp [alookup]
        have l2 : alookup ((a, w) :: rest) a = some w := by simp [alookup]
        rw [l1, l2]
        show some w = some (if a ∈ nk ∧ hasChanged fs w then updateLastModified fs w else w)
        rw [if_neg hg]
    · have l2 : alookup ((a, w) :: rest) n = alookup rest n := by simp [alookup, ha]
      by_cases hg : a ∈ nk ∧ hasChanged fs w
      · rw [hstep, if_pos hg]
        have l1 : alookup ((a, updateLastModified fs w) :: updateChangedRecs fs nk rest) n =
            alookup (updateChangedRecs fs nk rest) n := by simp [alookup, ha]
        rw [l1, l2]
        exact ih
      · rw [hstep, if_neg hg]
        have l1 : alookup ((a, w) :: updateChangedRecs fs nk rest) n =
            alookup (updateChangedRecs fs nk rest) n := by simp [alookup, ha]
        rw [l1, l2]
        exact ih

/-! ## Emission-loop lemmas -/

theorem processAdded_shape {l : List String} {lds : List (String × String)} {msg : Msg}
    (h : msg ∈ (processAdded l lds).1) : ∃ k, k ∈ l ∧ msg = .added k := by
  induction l generalizing lds with
  | nil => simp [processAdded] at h
  | cons n rest ih =>
    by_cases hg : alookup lds n = some "added"
    · rw [processAdded, if_pos hg] at h
      obtain ⟨k, hk, he⟩ := ih h
      exact ⟨k, List.mem_cons_of_mem _ hk, he⟩
    · rw [processAdded, if_neg hg] at h
      rcases List.mem_cons.1 h with h1 | h1
      · exact ⟨n, List.mem_cons_self n rest, h1⟩
      · obtain ⟨k, hk, he⟩ := ih h1
        exact ⟨k, List.mem_cons_of_mem _ hk, he⟩

theorem processDeleted_shape {l : List String} {lds : List (String × String)} {msg : Msg}
    (h : msg ∈ (processDeleted l lds).1) : ∃ k, k ∈ l ∧ msg = .deleted k := by
  induction l generalizing lds with
  | nil => simp [processDeleted] at h
  | cons n rest ih =>
    by_cases hg : alookup lds n = some "deleted"
    · rw [processDeleted, if_pos hg] at h
      obtain ⟨k, hk, he⟩ := ih h
      exact ⟨k, List.mem_cons_of_mem _ hk, he⟩
    · rw [processDeleted, if_neg hg] at h
      rcases List.mem_cons.1 h with h1 | h1
      · exact ⟨n, List.mem_cons_self n rest, h1⟩
      · obtain ⟨k, hk, he⟩ := ih h1
        exact ⟨k, List.mem_cons_of_mem _ hk, he⟩

theorem processChanged_shape {fs : Fs} {upd : List (String × FileRec)} {l : List String}
    {lds : List (String × String)} {msg : Msg}
    (h : msg ∈ (processChanged fs upd l lds).1) :
    ∃ k, k ∈ l ∧
      (msg = .changed k ∨ (msg = .contentModified k ∧ secondaryCheck fs upd k = true)) := by
  induction l generalizing lds with
  | nil => simp [processChanged] at h
  | cons n rest ih =>
    by_cases hg : alookup lds n = some "changed"
    · rw [processChanged, if_pos hg] at h
      obtain ⟨k, hk, he⟩ := ih h
      exact ⟨k, List.mem_cons_of_mem _ hk, he⟩
    · rw [processChanged, if_neg hg] at h
      rcases List.mem_cons.1 h with h1 | h1
      · exact ⟨n, List.mem_cons_self n rest, Or.inl h1⟩
      · rcases List.mem_append.1 h1 with h2 | h2
        · by_cases hs : secondaryCheck fs upd n = true
          · rw [if_pos hs] at h2
            rcases List.mem_singleton.1 h2 with rfl
            exact ⟨n, List.mem_cons_self n rest, Or.inr ⟨rfl, hs⟩⟩
          · rw [if_neg hs] at h2
            simp at h2
        · obtain ⟨k, hk, he⟩ := ih h2
          exact ⟨k, List.mem_cons_of_mem _ hk, he⟩

theorem processAdded_lookup_not_mem {l : List String} {lds : List (String × String)}
    {n : String} (h : n ∉ l) : alookup (processAdded l lds).2 n = alookup lds n := by
  induction l generalizing lds with
  | nil => rfl
  | cons k rest ih =>
    have hkn : ¬ k = n := fun e => h (e ▸ List.mem_cons_self k rest)
    have hrest : n ∉ rest := fun e => h (List.mem_cons_of_mem _ e)
    by_cases hg : alookup lds k = some "added"
    · rw [processAdded, if_pos hg]
      exact ih hrest
    · rw [processAdded, if_neg hg]
      rw [ih hrest, alookup_ainsert, if_neg hkn]

theorem processDeleted_lookup_not_mem {l : List String} {lds : List (String × String)}
    {n : String} (h : n ∉ l) : alookup (processDeleted l lds).2 n = alookup lds n := by
  induction l generalizing lds with
  | nil => rfl
  | cons k rest ih =>
    have hkn : ¬ k = n := fun e => h (e ▸ List.mem_cons_self k rest)
    have hrest : n ∉ rest := fun e => h (List.mem_cons_of_mem _ e)
    by_cases hg : alookup lds k = some "deleted"
    · rw [processDeleted, if_pos hg]
      exact ih hrest
    · rw [processDeleted, if_neg hg]
      rw [ih hrest, alookup_ainsert, if_neg hkn]

theorem processDeleted_lookup_mem {l : List String} {lds : List (String × String)}
    {n : String} (h : n ∈ l ∨ alookup lds n = some "deleted") :
    alookup (processDeleted l lds).2 n = some "deleted" := by
  induction l generalizing lds with
  | nil =>
    rcases h with h | h
    · simp at h
    · exact h
  | cons k rest ih =>
    by_cases hg : alookup lds k = some "deleted"
    · rw [processDeleted, if_pos hg]
      apply ih
      rcases h with h | h
      · rcases List.mem_cons.1 h with rfl | h1
        · exact Or.inr hg
        · exact Or.inl h1
      · exact Or.inr h
    · rw [processDeleted, if_neg hg]
      apply ih
      rcases h with h | h
      · rcases List.mem_cons.1 h with rfl | h1
        · exact Or.inr (by rw [alookup_ainsert, if_pos rfl])
        · exact Or.inl h1
      · by_cases hkn : k = n
        · exact Or.inr (by rw [alookup_ainsert, if_pos hkn])
        · exact Or.inr (by rw [alookup_ainsert, if_neg hkn]; exact h)

theorem processAdded_emits {l : List String} {lds : List (String × String)} {n : String}
    (h1 : n ∈ l) (h2 : alookup lds n ≠ some "added") :
    Msg.added n ∈ (processAdded l lds).1 := by
  induction l generalizing lds with
  | nil => simp at h1
  | cons k rest ih =>
    by_cases hg : alookup lds k = some "added"
    · rw [processAdded, if_pos hg]
      have hnk : ¬ n = k := fun e => h2 (e ▸ hg)
      rcases List.mem_cons.1 h1 with rfl | h1
      · exact absurd rfl hnk
      · exact ih h1 h2
    · rw [processAdded, if_neg hg]
      by_cases hnk : n = k
      · subst hnk
        exact List.mem_cons_self _ _
      · rcases List.mem_cons.1 h1 with rfl | h1
        · exact absurd rfl hnk
        · refine List.mem_cons_of_mem _ (ih h1 ?_)
          rw [alookup_ainsert, if_neg (fun e => hnk e.symm)]
          exact h2

theorem processChanged_emits {fs : Fs} {upd : List (String × FileRec)} {l : List String}
    {lds : List (String × String)} {n : String}
    (h1 : n ∈ l) (h2 : alookup lds n ≠ some "changed") :
    Msg.changed n ∈ (processChanged fs upd l lds).1 := by
  induction l generalizing lds with
  | nil => simp at h1
  | cons k rest ih =>
    by_cases hg : alookup lds k = some "changed"
    · rw [processChanged, if_pos hg]
      have hnk : ¬ n = k := fun e => h2 (e ▸ hg)
      rcases List.mem_cons.1 h1 with rfl | h1
      · exact absurd rfl hnk
      · exact ih h1 h2
    · rw [processChanged, if_neg hg]
      by_cases hnk : n = k
      · subst hnk
        exact List.mem_cons_self _ _
      · rcases List.mem_cons.1 h1 with rfl | h1
        · exact absurd rfl hnk
        · refine List.mem_cons_of_mem _ (List.mem_append_right _ (ih h1 ?_))
          rw [alookup_ainsert, if_neg (fun e => hnk e.symm)]
          exact h2

theorem processChanged_suppress {fs : Fs} {upd : List (String × FileRec)} {l : List String}
    {lds : List (String × String)} {n : String}
    (h : alookup lds n = some "changed") :
    Msg.changed n ∉ (processChanged fs upd l lds).1 := by
  induction l generalizing lds with
  | nil => simp [processChanged]
  | cons k rest ih =>
    by_cases hg : alookup lds k = some "changed"
    · rw [processChanged, if_pos hg]
      exact ih h
    · have hkn : ¬ k = n := fun e => hg (e ▸ h)
      rw [processChanged, if_neg hg]
      intro hmem
      rcases List.mem_cons.1 hmem with h1 | h1
      · injection h1 with h1
        exact hkn h1.symm
      · rcases List.mem_append.1 h1 with h2 | h2
        · by_cases hs : secondaryCheck fs upd k = true
          · rw [if_pos hs] at h2
            exact Msg.noConfusion (List.mem_singleton.1 h2)
          · rw [if_neg hs] at h2
            simp at h2
        · have hlds : alookup (ainsert lds k "changed") n = some "changed" := by
            rw [alookup_ainsert, if_neg hkn]
            exact h
          exact ih hlds h2

theorem changed_not_mem_processAdded {l : List String} {lds : List (String × String)}
    {n : String} : Msg.changed n ∉ (processAdded l lds).1 := by
  intro h
  obtain ⟨k, _, he⟩ := processAdded_shape h
  exact Msg.noConfusion he

theorem changed_not_mem_processDeleted {l : List String} {lds : List (String × String)}
    {n : String} : Msg.changed n ∉ (processDeleted l lds).1 := by
  intro h
  obtain ⟨k, _, he⟩ := processDeleted_shape h
  exact Msg.noConfusion he

theorem contentModified_not_mem_processAdded {l : List String} {lds : List (String × String)}
    {n : String} : Msg.contentModified n ∉ (processAdded l lds).1 := by
  intro h
  obtain ⟨k, _, he⟩ := processAdded_shape h
  exact Msg.noConfusion he

theorem contentModified_not_mem_processDeleted {l : List String}
    {lds : List (String × String)} {n : String} :
    Msg.contentModified n ∉ (processDeleted l lds).1 := by
  intro h
  obtain ⟨k, _, he⟩ := processDeleted_shape h
  exact Msg.noConfusion he

theorem added_not_mem_processChanged {fs : Fs} {upd : List (String × FileRec)}
    {l : List String} {lds : List (String × String)} {n : String} :
    Msg.added n ∉ (processChanged fs upd l lds).1 := by
  intro h
  obtain ⟨k, _, he⟩ := processChanged_shape h
  rcases he with he | he
  · exact Msg.noConfusion he
  · exact Msg.noConfusion he.1

theorem added_not_mem_processDeleted {l : List String} {lds : List (String × String)}
    {n : String} : Msg.added n ∉ (processDeleted l lds).1 := by
  intro h
  obtain ⟨k, _, he⟩ := processDeleted_shape h
  exact Msg.noConfusion he

theorem processChanged_count {fs : Fs} {upd : List (String × FileRec)} {l : List String}
    {lds : List (String × String)} {n : String}
    (hnd : l.Nodup) (h1 : n ∈ l) (h2 : alookup lds n ≠ some "changed") :
    ((processChanged fs upd l lds).1).count (Msg.changed n) = 1 := by
  induction l generalizing lds with
  | nil => simp at h1
  | cons k rest ih =>
    rw [List.nodup_cons] at hnd
    by_cases hg : alookup lds k = some "changed"
    · rw [processChanged, if_pos hg]
      have hnk : ¬ n = k := fun e => h2 (e ▸ hg)
      rcases List.mem_cons.1 h1 with rfl | h1
      · exact absurd rfl hnk
      · exact ih hnd.2 h1 h2
    · rw [processChanged, if_neg hg]
      by_cases hnk : n = k
      · subst hnk
        have hrest : Msg.changed n ∉
            (processChanged fs upd rest (ainsert lds n "changed")).1 := by
          intro hm
          obtain ⟨k', hk', he⟩ := processChanged_shape hm
          rcases he with he | he
          · injection he with he
            subst he
            exact hnd.1 hk'
          · exact Msg.noConfusion he.1
        have hsec : Msg.changed n ∉
            (if secondaryCheck fs upd n then [Msg.contentModified n] else []) := by
          by_cases hs : secondaryCheck fs upd n = true
          · rw [if_pos hs]
            intro hm
            exact Msg.noConfusion (List.mem_singleton.1 hm)
          · rw [if_neg hs]
            simp
        simp only [List.count_cons, List.count_append]
        rw [List.count_eq_zero.2 hsec, List.count_eq_zero.2 hrest]
        simp
      · have h1' : n ∈ rest := by
          rcases List.mem_cons.1 h1 with rfl | h1
          · exact absurd rfl hnk
          · exact h1
        have h2' : alookup (ainsert lds k "changed") n ≠ some "changed" := by
          rw [alookup_ainsert, if_neg (fun e => hnk e.symm)]
          exact h2
        have hsec : Msg.changed n ∉
            (if secondaryCheck fs upd k then [Msg.contentModified k] else []) := by
          by_cases hs : secondaryCheck fs upd k = true
          · rw [if_pos hs]
            intro hm
            exact Msg.noConfusion (List.mem_singleton.1 hm)
          · rw [if_neg hs]
            simp
        simp only [List.count_cons, List.count_append]
        rw [List.count_eq_zero.2 hsec, ih hnd.2 h1' h2']
        have : (Msg.changed k == Msg.changed n) = false := by
          simp
          intro e
          exact hnk e.symm
        rw [this]
        simp

/-! ## Record-update lemmas -/

theorem updateLastModified_path (fs : Fs) (r : FileRec) :
    (updateLastModified fs r).path = r.path := by
  by_cases h : r.kind = FileKind.text <;> simp [updateLastModified, h]

theorem updateLastModified_kind (fs : Fs) (r : FileRec) :
    (updateLastModified fs r).kind = r.kind := by
  by_cases h : r.kind = FileKind.text <;> simp [updateLastModified, h]

theorem updateLastModified_contentHash_text (fs : Fs) (r : FileRec)
    (h : r.kind = FileKind.text) :
    (updateLastModified fs r).contentHash = computeContentHash fs r.path := by
  simp [updateLastModified, h]

theorem hasChanged_updateLastModified (fs : Fs) (r : FileRec) :
    hasChanged fs (updateLastModified fs r) = false := by
  have hp : (updateLastModified fs r).path = r.path := updateLastModified_path fs r
  have hd : (updateLastModified fs r).lastUpdatedDate =
      (match alookup fs r.path with
       | some f => f.mtime
       | none => r.lastUpdatedDate) := by
    by_cases h : r.kind = FileKind.text <;> simp [updateLastModified, h]
  rw [hasChanged, hp, hd]
  cases he : alookup fs r.path with
  | none => rfl
  | some f => simp

theorem hasContentChanged_updateLastModified (fs : Fs) (r : FileRec)
    (h : r.kind = FileKind.text) :
    hasContentChanged fs (updateLastModified fs r) = false := by
  rw [hasContentChanged, updateLastModified_path,
    updateLastModified_contentHash_text fs r h]
  simp

/-! ## Scan-construction lemmas -/

theorem mem_keys_buildCurrent_aux (fs : Fs) (l : List (String × FsFile))
    (acc : List (String × FileRec)) (n : String) :
    n ∈ keys (l.foldl (fun acc p => ainsert acc p.1 (buildRecord fs p.1 p.2)) acc) ↔
      n ∈ keys acc ∨ n ∈ keys l := by
  induction l generalizing acc with
  | nil => simp
  | cons p rest ih =>
    obtain ⟨a, w⟩ := p
    rw [List.foldl_cons, ih, mem_keys_ainsert, keys_cons, List.mem_cons]
    tauto

theorem mem_keys_buildCurrent (fs : Fs) (n : String) :
    n ∈ keys (buildCurrent fs) ↔ n ∈ keys fs := by
  rw [buildCurrent, mem_keys_buildCurrent_aux]
  simp

theorem nodup_keys_buildCurrent_aux (fs : Fs) (l : List (String × FsFile))
    (acc : List (String × FileRec)) (h : (keys acc).Nodup) :
    (keys (l.foldl (fun acc p => ainsert acc p.1 (buildRecord fs p.1 p.2)) acc)).Nodup := by
  induction l generalizing acc with
  | nil => exact h
  | cons p rest ih =>
    rw [List.foldl_cons]
    exact ih _ (nodup_keys_ainsert _ _ _ h)

theorem nodup_keys_buildCurrent (fs : Fs) : (keys (buildCurrent fs)).Nodup := by
  rw [buildCurrent]
  exact nodup_keys_buildCurrent_aux fs fs [] (by simp)

/-! ## Unfolding the scan pipeline -/

theorem detectChanges_fst (fs : Fs) (m : Monitor) (current : List (String × FileRec)) :
    (detectChanges fs m current).1 =
      (processAdded (addedNames (keys m.files) (keys current)) m.lastDisplayedState).1 ++
        (processDeleted (deletedNames (keys m.files) (keys current))
          (processAdded (addedNames (keys m.files) (keys current))
            m.lastDisplayedState).2).1 ++
        (processChanged fs (updateChangedRecs fs (keys current) m.files)
          (changedNames fs (keys current) m.files)
          (processDeleted (deletedNames (keys m.files) (keys current))
            (processAdded (addedNames (keys m.files) (keys current))
              m.lastDisplayedState).2).2).1 := rfl

theorem detectChanges_lds (fs : Fs) (m : Monitor) (current : List (String × FileRec)) :
    (detectChanges fs m current).2.lastDisplayedState =
      (processChanged fs (updateChangedRecs fs (keys current) m.files)
        (changedNames fs (keys current) m.files)
        (processDeleted (deletedNames (keys m.files) (keys current))
          (processAdded (addedNames (keys m.files) (keys current))
            m.lastDisplayedState).2).2).2 := rfl

theorem scanFiles_fst (fs : Fs) (m : Monitor) :
    (scanFiles fs m).1 = (detectChanges fs m (buildCurrent fs)).1 := rfl

theorem scanFiles_files (fs : Fs) (m : Monitor) :
    (scanFiles fs m).2.files = buildCurrent fs := rfl

theorem scanFiles_lds (fs : Fs) (m : Monitor) :
    (scanFiles fs m).2.lastDisplayedState =
      (detectChanges fs m (buildCurrent fs)).2.lastDisplayedState := rfl

theorem commitM_lds (now : Int) (fs : Fs) (m : Monitor) :
    (commitM now fs m).lastDisplayedState = m.lastDisplayedState := rfl

theorem commitM_keys (now : Int) (fs : Fs) (m : Monitor) :
    keys (commitM now fs m).files = keys m.files := by
  show keys (m.files.map fun p => (p.1, updateLastModified fs p.2)) = keys m.files
  induction m.files with
  | nil => rfl
  | cons p rest ih =>
    obtain ⟨a, w⟩ := p
    rw [List.map_cons, keys_cons, keys_cons, ih]

theorem processChanged_lookup_not_mem {fs : Fs} {upd : List (String × FileRec)}
    {l : List String} {lds : List (String × String)} {n : String} (h : n ∉ l) :
    alookup (processChanged fs upd l lds).2 n = alookup lds n := by
  induction l generalizing lds with
  | nil => rfl
  | cons k rest ih =>
    have hkn : ¬ k = n := fun e => h (e ▸ List.mem_cons_self k rest)
    have hrest : n ∉ rest := fun e => h (List.mem_cons_of_mem _ e)
    by_cases hg : alookup lds k = some "changed"
    · rw [processChanged, if_pos hg]
      exact ih hrest
    · rw [processChanged, if_neg hg]
      rw [ih hrest, alookup_ainsert, if_neg hkn]

/-! ## Claims -/

/-- C4 counterexample: for the Text file whose reads fail, the stored hash is
`none`, yet `has_content_changed` returns `false` (both sides of the
comparison are `None`), refuting "a null stored hash is treated as always
different". -/
theorem C4_counterexample :
    (buildRecord fsUnreadable "a.txt" ⟨0, 0, none⟩).contentHash = none ∧
    hasContentChanged fsUnreadable (buildRecord fsUnreadable "a.txt" ⟨0, 0, none⟩) = false := by
  decide

/-- C4 (amended): when the hashing read fails the stored hash degrades to
`none`; a `none` stored hash makes the next comparison return `true` exactly
when the next read succeeds (a successful hash is non-null), and `false`
when the next read fails as well. -/
theorem C4_null_hash_semantics (fs : Fs) (r : FileRec) :
    (r.kind = FileKind.text → readContent fs r.path = none →
      (updateLastModified fs r).contentHash = none) ∧
    (r.contentHash = none →
      hasContentChanged fs r = (computeContentHash fs r.path).isSome) := by
  constructor
  · intro hk hr
    rw [updateLastModified_contentHash_text fs r hk, computeContentHash, hr]
    rfl
  · intro hh
    rw [hasContentChanged, hh]
    cases hc : computeContentHash fs r.path <;> simp

/-- C5 counterexample: for `NOTES.TXT` the stored `extension` field is the
raw suffix `".TXT"`, not the lower-cased `".txt"`, although the variant
chosen is still Text. -/
theorem C5_counterexample :
    (buildRecord (fsUpper 0 "x") "NOTES.TXT" ⟨0, 0, some "x"⟩).extension = ".TXT" ∧
    strLower (splitextExt "NOTES.TXT") = ".txt" ∧
    (buildRecord (fsUpper 0 "x") "NOTES.TXT" ⟨0, 0, some "x"⟩).extension ≠
      strLower (splitextExt "NOTES.TXT") ∧
    (buildRecord (fsUpper 0 "x") "NOTES.TXT" ⟨0, 0, some "x"⟩).kind = FileKind.text := by
  decide

/-- C5 (amended): the stored `extension` field is the raw (case-preserving)
suffix of the path; the classifier lower-cases that suffix separately, and
the lower-cased suffix is what determines the variant. -/
theorem C5_extension_and_variant (fs : Fs) (n : String) (f : FsFile) :
    (buildRecord fs n f).extension = splitextExt n ∧
    (buildRecord fs n f).kind = classify (strLower (buildRecord fs n f).extension) := by
  exact ⟨rfl, rfl⟩

/-- C6 counterexample: the line actually printed for an added file is
`"[INFO] a.txt is a new file."`, not the bare `"a.txt is a new file."` the
claim states. -/
theorem C6_counterexample :
    ((scanFiles (fsOneTxt 0 "x") emptyMonitor).1).map Msg.render =
      ["[INFO] a.txt is a new file."] ∧
    "[INFO] a.txt is a new file." ≠ "a.txt is a new file." := by
  decide

/-- C6 (amended): every printed notification line is one of the four
specified formats prefixed by `"[INFO] "`. -/
theorem C6_line_formats (fs : Fs) (m : Monitor) (s : String)
    (h : s ∈ ((scanFiles fs m).1).map Msg.render) :
    ∃ n, s = "[INFO] " ++ n ++ " is a new file." ∨
      s = "[INFO] " ++ n ++ " was deleted." ∨
      s = "[INFO] " ++ n ++ " has changed." ∨
      s = "[INFO] A modification was detected in the document '" ++ n ++ "'." := by
  obtain ⟨msg, _, rfl⟩ := List.mem_map.1 h
  cases msg with
  | added n => exact ⟨n, Or.inl rfl⟩
  | deleted n => exact ⟨n, Or.inr (Or.inl rfl)⟩
  | changed n => exact ⟨n, Or.inr (Or.inr (Or.inl rfl))⟩
  | contentModified n => exact ⟨n, Or.inr (Or.inr (Or.inr rfl))⟩

/-- C6 witness: the concrete added-file line matches the amended format. -/
theorem C6_line_formats_witness :
    ∃ n, "[INFO] a.txt is a new file." = "[INFO] " ++ n ++ " is a new file." ∨
      "[INFO] a.txt is a new file." = "[INFO] " ++ n ++ " was deleted." ∨
      "[INFO] a.txt is a new file." = "[INFO] " ++ n ++ " has changed." ∨
      "[INFO] a.txt is a new file." =
        "[INFO] A modification was detected in the document '" ++ n ++ "'." :=
  C6_line_formats (fsOneTxt 0 "x") emptyMonitor "[INFO] a.txt is a new file." (by decide)

/-- C7: on the two-file directory the initial scan reports both files as
added, and `info` returns the specified counts for each. -/
theorem C7_scenario :
    Msg.added "a.txt" ∈ (scanFiles fsPair emptyMonitor).1 ∧
    Msg.added "b.py" ∈ (scanFiles fsPair emptyMonitor).1 ∧
    (infoM fsPair (initMonitor 0 fsPair) "a.txt").map (fun l =>
      (alookup l "Line Count", alookup l "Word Count", alookup l "Character Count")) =
      some (some (.nat 2), some (.nat 2), some (.nat 12)) ∧
    (infoM fsPair (initMonitor 0 fsPair) "b.py").map (fun l =>
      (alookup l "Method Count", alookup l "Class Count")) =
      some (some (.nat 1), some (.nat 0)) := by
  decide

/-- C9: a file named `NOTES.TXT` is classified as the Text variant (the
classifier lower-cases the suffix), but the secondary content-modified
notification can never be emitted for it, because the emission guard tests
the literal, case-sensitive filename suffix `'.txt'`. -/
theorem C9_upper_case_txt_no_secondary :
    classify (strLower (splitextExt "NOTES.TXT")) = FileKind.text ∧
    strEndsWith "NOTES.TXT" ".txt" = false ∧
    ∀ (fs : Fs) (m : Monitor), Msg.contentModified "NOTES.TXT" ∉ (scanFiles fs m).1 := by
  refine ⟨by decide, by decide, ?_⟩
  intro fs m hmem
  rw [scanFiles_fst, detectChanges_fst] at hmem
  rcases List.mem_append.1 hmem with h | h
  · rcases List.mem_append.1 h with h | h
    · exact contentModified_not_mem_processAdded h
    · exact contentModified_not_mem_processDeleted h
  · obtain ⟨k, hk, he⟩ := processChanged_shape h
    rcases he with he | he
    · exact Msg.noConfusion he
    · have hs := he.2
      rw [secondaryCheck, Bool.and_eq_true] at hs
      have hend := hs.1
      injection he.1 with hn
      rw [← hn] at hend
      exact absurd hend (by decide)

/-- C10: `has_changed` tests plain inequality between the live mtime and the
stored baseline, so any difference — including a backward move of the
mtime — reports a change. -/
theorem C10_hasChanged_is_inequality (fs : Fs) (r : FileRec) (f : FsFile)
    (h : alookup fs r.path = some f) :
    (hasChanged fs r = true ↔ f.mtime ≠ r.lastUpdatedDate) := by
  rw [hasChanged, h]
  simp
  exact ne_comm

/-- C10 witness: a record whose baseline (5) is ahead of the live mtime (3)
— the mtime moved backward — still reports `has_changed`. -/
theorem C10_witness : hasChanged fsBack recStale = true :=
  (C10_hasChanged_is_inequality fsBack recStale ⟨3, 0, some ""⟩ (by decide)).2 (by decide)

/-- C1 counterexample: `a.txt` changes mtime 0→1 and content "x"→"y".  The
current content's hash differs from the hash stored before the scan, and the
changed-event fires, yet the scan emits only the primary line and no
secondary content-modified notification (the hash was re-stored by
`update_last_modified` before the check). -/
theorem C1_counterexample :
    pyHash "x" ≠ pyHash "y" ∧
    (alookup (initMonitor 0 (fsOneTxt 0 "x")).files "a.txt").map FileRec.contentHash =
      some (some (pyHash "x")) ∧
    computeContentHash (fsOneTxt 1 "y") "a.txt" = some (pyHash "y") ∧
    (scanFiles (fsOneTxt 1 "y") (initMonitor 0 (fsOneTxt 0 "x"))).1 =
      [Msg.changed "a.txt"] := by
  decide

/-- C1 (amended): the secondary check runs only inside the de-duplication
guard and compares against the hash that `update_last_modified` re-stored
earlier in the same scan, so for a tracked Text record the secondary
content-modified notification is never emitted by a scan. -/
theorem C1_secondary_never_fires (fs : Fs) (m : Monitor) (n : String) (r : FileRec)
    (hnd : (keys m.files).Nodup) (hr : alookup m.files n = some r)
    (hk : r.kind = FileKind.text) :
    Msg.contentModified n ∉ (scanFiles fs m).1 := by
  intro hmem
  rw [scanFiles_fst, detectChanges_fst] at hmem
  rcases List.mem_append.1 hmem with h | h
  · rcases List.mem_append.1 h with h1 | h1
    · exact contentModified_not_mem_processAdded h1
    · exact contentModified_not_mem_processDeleted h1
  · obtain ⟨k, hkmem, he⟩ := processChanged_shape h
    rcases he with he | he
    · exact Msg.noConfusion he
    · have hkn : n = k := Msg.contentModified.inj he.1
      subst hkn
      have hspec := changedNames_spec hnd hr hkmem
      have hupd : alookup (updateChangedRecs fs (keys (buildCurrent fs)) m.files) n =
          some (updateLastModified fs r) := by
        rw [alookup_updateChangedRecs, hr]
        show some (if n ∈ keys (buildCurrent fs) ∧ hasChanged fs r
          then updateLastModified fs r else r) = some (updateLastModified fs r)
        rw [if_pos ⟨hspec.1, hspec.2⟩]
      have hs := he.2
      rw [secondaryCheck, Bool.and_eq_true] at hs
      have hs2 := hs.2
      rw [hupd] at hs2
      have hcc : hasContentChanged fs (updateLastModified fs r) = true := hs2
      rw [hasContentChanged_updateLastModified fs r hk] at hcc
      exact Bool.noConfusion hcc

/-- C1 witness: at the concrete changed Text file of the counterexample the
amended statement applies. -/
theorem C1_secondary_never_fires_witness :
    Msg.contentModified "a.txt" ∉
      (scanFiles (fsOneTxt 1 "y") (initMonitor 0 (fsOneTxt 0 "x"))).1 :=
  C1_secondary_never_fires (fsOneTxt 1 "y") (initMonitor 0 (fsOneTxt 0 "x")) "a.txt"
    (buildRecord (fsOneTxt 0 "x") "a.txt" ⟨0, 0, some "x"⟩)
    (by decide) (by decide) (by decide)

/-- C2 counterexample: `a.bin` advances mtime 0→1 and is announced once;
after a second advance 1→2 the next scan emits nothing — the second mtime
advance does not produce a new "has changed" notification. -/
theorem C2_counterexample :
    (scanFiles (fsOneBin 1) (initMonitor 0 (fsOneBin 0))).1 = [Msg.changed "a.bin"] ∧
    (scanFiles (fsOneBin 2)
      ((scanFiles (fsOneBin 1) (initMonitor 0 (fsOneBin 0))).2)).1 = [] := by
  decide

/-- C2 (amended): a changed file is announced exactly once at the first scan
that observes it; afterwards the de-duplication entry stays `'changed'` and
no later scan repeats the announcement — neither a commit (which leaves the
de-duplication map untouched) nor a further mtime advance re-enables it. -/
theorem C2_changed_announced_once (fs : Fs) (m : Monitor) (n : String) (now : Int) :
    (alookup m.lastDisplayedState n = some "changed" →
      Msg.changed n ∉ (scanFiles fs m).1) ∧
    (commitM now fs m).lastDisplayedState = m.lastDisplayedState ∧
    ((keys m.files).Nodup → n ∈ changedNames fs (keys (buildCurrent fs)) m.files →
      alookup m.lastDisplayedState n ≠ some "changed" →
      ((scanFiles fs m).1).count (Msg.changed n) = 1) := by
  refine ⟨?_, rfl, ?_⟩
  · intro h hmem
    rw [scanFiles_fst, detectChanges_fst] at hmem
    rcases List.mem_append.1 hmem with h1 | h1
    · rcases List.mem_append.1 h1 with h2 | h2
      · exact changed_not_mem_processAdded h2
      · exact changed_not_mem_processDeleted h2
    · obtain ⟨k, hkmem, he⟩ := processChanged_shape h1
      rcases he with he | he
      · have hkn : n = k := Msg.changed.inj he
        subst hkn
        have hmm := mem_changedNames hkmem
        have hna : n ∉ addedNames (keys m.files) (keys (buildCurrent fs)) :=
          fun ha => (mem_addedNames.1 ha).2 hmm.1
        have hnd2 : n ∉ deletedNames (keys m.files) (keys (buildCurrent fs)) :=
          fun hd => (mem_deletedNames.1 hd).2 hmm.2
        have hpres : alookup
            (processDeleted (deletedNames (keys m.files) (keys (buildCurrent fs)))
              (processAdded (addedNames (keys m.files) (keys (buildCurrent fs)))
                m.lastDisplayedState).2).2 n = some "changed" := by
          rw [processDeleted_lookup_not_mem hnd2, processAdded_lookup_not_mem hna]
          exact h
        exact processChanged_suppress hpres h1
      · exact Msg.noConfusion he.1
  · intro hnd hcn hlds
    rw [scanFiles_fst, detectChanges_fst, List.count_append, List.count_append]
    have hmm := mem_changedNames hcn
    have hna : n ∉ addedNames (keys m.files) (keys (buildCurrent fs)) :=
      fun ha => (mem_addedNames.1 ha).2 hmm.1
    have hnd2 : n ∉ deletedNames (keys m.files) (keys (buildCurrent fs)) :=
      fun hd => (mem_deletedNames.1 hd).2 hmm.2
    have hpres : alookup
        (processDeleted (deletedNames (keys m.files) (keys (buildCurrent fs)))
          (processAdded (addedNames (keys m.files) (keys (buildCurrent fs)))
            m.lastDisplayedState).2).2 n ≠ some "changed" := by
      rw [processDeleted_lookup_not_mem hnd2, processAdded_lookup_not_mem hna]
      exact hlds
    rw [List.count_eq_zero.2 changed_not_mem_processAdded,
      List.count_eq_zero.2 changed_not_mem_processDeleted,
      processChanged_count (changedNames_nodup hnd) hcn hpres]

/-- C3: after a tracked file disappears (so its de-duplication entry reads
`'deleted'`), a scan that sees the filename again announces it as a new
file, never as changed. -/
theorem C3_delete_then_reappear (fs1 fs2 : Fs) (m : Monitor) (n : String)
    (h1 : n ∈ keys m.files) (h2 : n ∉ keys fs1) (h3 : n ∈ keys fs2) :
    Msg.added n ∈ (scanFiles fs2 (scanFiles fs1 m).2).1 ∧
    Msg.changed n ∉ (scanFiles fs2 (scanFiles fs1 m).2).1 := by
  have hnotnew1 : n ∉ keys (buildCurrent fs1) :=
    fun h => h2 ((mem_keys_buildCurrent fs1 n).1 h)
  have hm1files : (scanFiles fs1 m).2.files = buildCurrent fs1 := scanFiles_files fs1 m
  have hm1lds : alookup (scanFiles fs1 m).2.lastDisplayedState n = some "deleted" := by
    rw [scanFiles_lds, detectChanges_lds]
    have hch : n ∉ changedNames fs1 (keys (buildCurrent fs1)) m.files :=
      fun h => hnotnew1 (mem_changedNames h).2
    rw [processChanged_lookup_not_mem hch]
    apply processDeleted_lookup_mem
    exact Or.inl (mem_deletedNames.2 ⟨h1, hnotnew1⟩)
  have hadd2 : n ∈ addedNames (keys (scanFiles fs1 m).2.files)
      (keys (buildCurrent fs2)) := by
    rw [hm1files]
    exact mem_addedNames.2 ⟨(mem_keys_buildCurrent fs2 n).2 h3, hnotnew1⟩
  constructor
  · rw [scanFiles_fst, detectChanges_fst]
    apply List.mem_append_left
    apply List.mem_append_left
    apply processAdded_emits hadd2
    rw [hm1lds]
    decide
  · intro hmem
    rw [scanFiles_fst, detectChanges_fst] at hmem
    rcases List.mem_append.1 hmem with ha | ha
    · rcases List.mem_append.1 ha with hb | hb
      · exact changed_not_mem_processAdded hb
      · exact changed_not_mem_processDeleted hb
    · obtain ⟨k, hkmem, he⟩ := processChanged_shape ha
      rcases he with he | he
      · have hkn : n = k := Msg.changed.inj he
        subst hkn
        have hmm := (mem_changedNames hkmem).1
        rw [hm1files] at hmm
        exact hnotnew1 hmm
      · exact Msg.noConfusion he.1

/-- C3 witness: delete `a.txt`, rescan, recreate it with different content;
the next scan announces it as a new file and not as changed. -/
theorem C3_delete_then_reappear_witness :
    Msg.added "a.txt" ∈ (scanFiles (fsOneTxt 1 "y")
      (scanFiles ([] : Fs) (initMonitor 0 (fsOneTxt 0 "x"))).2).1 ∧
    Msg.changed "a.txt" ∉ (scanFiles (fsOneTxt 1 "y")
      (scanFiles ([] : Fs) (initMonitor 0 (fsOneTxt 0 "x"))).2).1 :=
  C3_delete_then_reappear ([] : Fs) (fsOneTxt 1 "y") (initMonitor 0 (fsOneTxt 0 "x"))
    "a.txt" (by decide) (by decide) (by decide)

/-- C8: scanning, committing twice and scanning again — all against the same
directory contents — emits no notifications on the final scan: `commit`
forces `update_last_modified` on every tracked record, so nothing reports
`has_changed`, and the name sets agree. -/
theorem C8_commit_commit_scan_silent (fs : Fs) (m0 : Monitor) (now1 now2 : Int) :
    (scanFiles fs (commitM now2 fs (commitM now1 fs (scanFiles fs m0).2))).1 = [] := by
  have hkeys : keys (commitM now2 fs (commitM now1 fs (scanFiles fs m0).2)).files =
      keys (buildCurrent fs) := by
    rw [commitM_keys, commitM_keys, scanFiles_files]
  rw [scanFiles_fst, detectChanges_fst, hkeys]
  have hA : addedNames (keys (buildCurrent fs)) (keys (buildCurrent fs)) = [] := by
    rw [addedNames]
    apply List.filter_eq_nil_iff.2
    intro a ha
    simp [ha]
  have hD : deletedNames (keys (buildCurrent fs)) (keys (buildCurrent fs)) = [] := by
    rw [deletedNames]
    apply List.filter_eq_nil_iff.2
    intro a ha
    simp [ha]
  have hC : changedNames fs (keys (buildCurrent fs))
      (commitM now2 fs (commitM now1 fs (scanFiles fs m0).2)).files = [] := by
    rw [changedNames]
    rw [List.map_eq_nil_iff]
    apply List.filter_eq_nil_iff.2
    intro p hp
    have hp2 : p ∈ (commitM now1 fs (scanFiles fs m0).2).files.map
        (fun q => (q.1, updateLastModified fs q.2)) := hp
    obtain ⟨q, hq, rfl⟩ := List.mem_map.1 hp2
    simp [hasChanged_updateLastModified]
  rw [hA, hD, hC]
  rfl

end Lab3
